import Mathlib

/-!
# Verification of the finance_tracker ingestion pipeline

Shallow embedding of `src/utils.py` (the tolerant load/normalize/save
pipeline of the expense ledger).  Strings are modelled as Lean `String`s
(lists of characters), CSV files as lists of records (each record a list
of field strings): the `csv` module's quoting layer round-trips records,
so the embedding works at record level.  Python `float` values are
modelled by `PyFloat`: finite values as exact rationals, plus signed
infinities and `nan`, all of which `float()` can produce and
`_parse_amount` can let through (`nan <= 0` is false).  The only
idealization is binary-float precision: finite values are exact
rationals, with no 53-bit rounding and no overflow to `inf` for huge
exponents.  `round(x, 2)` and the `:.2f` format use exact half-even
rounding on finite values and fix `inf`/`nan`.
The file-system state of the default CSV path is modelled as
`Option (List (List String))` (`none` = the file does not exist,
`some []` = a zero-byte file).
-/

namespace FinanceTracker

/-- The whitespace characters stripped by Python's `str.strip()` and by
`float()` (ASCII fragment). -/
def isPySpace (c : Char) : Bool :=
  c = ' ' || c = '\t' || c = '\n' || c = '\r' || c = '\x0b' || c = '\x0c'

/-- Remove leading whitespace (the front half of `str.strip()`). -/
def trimLeft (l : List Char) : List Char := l.dropWhile isPySpace

/-- Remove trailing whitespace (the back half of `str.strip()`). -/
def trimRight : List Char → List Char
  | [] => []
  | c :: l =>
    match trimRight l with
    | [] => if isPySpace c then [] else [c]
    | r => c :: r

/-- Python `str.strip()` on a character list. -/
def pystrip (l : List Char) : List Char := trimRight (trimLeft l)

/-- Python `str.strip()` on a `String`. -/
def pystripS (s : String) : String := ⟨pystrip s.data⟩

/-- Python `str.lower()` (ASCII fragment). -/
def pylower (s : String) : String := ⟨s.data.map Char.toLower⟩

/-- Python `str.replace(x, "")`: delete every occurrence of character `x`. -/
def removeAll (x : Char) (l : List Char) : List Char := l.filter (fun c => c ≠ x)

/-- The `mapping` dict of `_standardize_col_name` in `src/utils.py`. -/
def colSynonyms : List (String × String) :=
  [("date", "date"), ("transaction date", "date"), ("txn date", "date"),
   ("amount", "amount"), ("amt", "amount"), ("value", "amount"), ("debit", "amount"),
   ("category", "category"), ("type", "category"),
   ("description", "description"), ("desc", "description"), ("merchant", "description"),
   ("narration", "description"), ("details", "description"), ("notes", "description")]

/-- Model of `_standardize_col_name` from `src/utils.py`:
`c = col.strip().lower()` then `mapping.get(c, c)`. -/
def _standardize_col_name (col : String) : String :=
  let c := pylower (pystripS col)
  match colSynonyms.find? (fun p => p.1 = c) with
  | some p => p.2
  | none => c

/-- The `STANDARD_COLUMNS` constant from `src/utils.py`. -/
def STANDARD_COLUMNS : List String := ["date", "amount", "category", "description"]

/-! ## Decimal digits -/

/-- Is `c` an ASCII decimal digit (`\d` of the `re` module, ASCII fragment)? -/
def isDigitC (c : Char) : Bool := '0' ≤ c && c ≤ '9'

/-- The decimal digit character for `d < 10`. -/
def dchar (d : Nat) : Char := Char.ofNat (48 + d)

/-- The numeric value of a decimal digit character. -/
def dval (c : Char) : Nat := c.toNat - 48

/-- The value of a big-endian string of decimal digits. -/
def natval (ds : List Char) : Nat := ds.foldl (fun a c => a * 10 + dval c) 0

/-- Python `str(n)` for a natural number (decimal, no padding). -/
def repNat (n : Nat) : List Char :=
  if n = 0 then ['0'] else ((Nat.digits 10 n).reverse).map dchar

/-- Decimal representation padded with zeros to two digits (for `n ≤ 99`). -/
def pad2 (n : Nat) : List Char := [dchar (n / 10 % 10), dchar (n % 10)]

/-- Decimal representation padded with zeros to four digits (for `n ≤ 9999`),
the `%Y` field of `strftime`. -/
def pad4 (n : Nat) : List Char :=
  [dchar (n / 1000 % 10), dchar (n / 100 % 10), dchar (n / 10 % 10), dchar (n % 10)]

/-! ## Dates

`datetime.strptime` compiles each format into a regex (`%Y` ↦ `\d{4}`,
`%m` ↦ `1[0-2]|0[1-9]|[1-9]`, `%d` ↦ `3[01]|[12]\d|0[1-9]|[1-9]`,
other characters literal), takes the first match in backtracking order,
rejects leftover input, and then builds a `datetime`, which checks
`1 ≤ year` and that the day fits the month.  The `alt*` functions below
implement the alternation of each field in the regex's order, in
continuation style so that a failing continuation backtracks to the next
alternative, exactly as the regex engine does. -/

/-- A parsed calendar date (the `datetime` fields this program uses). -/
structure PyDate where
  year : Nat
  month : Nat
  day : Nat
deriving DecidableEq

/-- Number of days in a month of the proleptic Gregorian calendar
(`datetime`'s calendar). -/
def daysInMonth (y m : Nat) : Nat :=
  if m = 2 then (if y % 4 = 0 && (y % 100 ≠ 0 || y % 400 = 0) then 29 else 28)
  else if m = 4 || m = 6 || m = 9 || m = 11 then 30
  else 31

/-- The validity check performed by the `datetime(year, month, day)`
constructor (with `MINYEAR = 1`, `MAXYEAR = 9999`). -/
def dateOK (t : PyDate) : Bool :=
  1 ≤ t.year && t.year ≤ 9999 && 1 ≤ t.month && t.month ≤ 12 &&
    1 ≤ t.day && t.day ≤ daysInMonth t.year t.month

/-- First-of-two alternatives combinator (ordered alternation). -/
def firstSome {α : Type} (a b : Option α) : Option α :=
  match a with
  | some x => some x
  | none => b

/-- The `%m` regex `1[0-2]|0[1-9]|[1-9]`, alternatives in order, with
backtracking into the continuation `k`. -/
def altM {α : Type} (cs : List Char) (k : Nat → List Char → Option α) : Option α :=
  firstSome
    (match cs with
     | '1' :: c :: rest => if '0' ≤ c ∧ c ≤ '2' then k (10 + dval c) rest else none
     | _ => none)
    (firstSome
      (match cs with
       | '0' :: c :: rest => if '1' ≤ c ∧ c ≤ '9' then k (dval c) rest else none
       | _ => none)
      (match cs with
       | c :: rest => if '1' ≤ c ∧ c ≤ '9' then k (dval c) rest else none
       | _ => none))

/-- The `%d` regex `3[01]|[12]\d|0[1-9]|[1-9]`, alternatives in order, with
backtracking into the continuation `k`. -/
def altD {α : Type} (cs : List Char) (k : Nat → List Char → Option α) : Option α :=
  firstSome
    (match cs with
     | '3' :: c :: rest => if '0' ≤ c ∧ c ≤ '1' then k (30 + dval c) rest else none
     | _ => none)
    (firstSome
      (match cs with
       | c1 :: c2 :: rest =>
         if ('1' ≤ c1 ∧ c1 ≤ '2') ∧ ('0' ≤ c2 ∧ c2 ≤ '9')
         then k (10 * dval c1 + dval c2) rest else none
       | _ => none)
      (firstSome
        (match cs with
         | '0' :: c :: rest => if '1' ≤ c ∧ c ≤ '9' then k (dval c) rest else none
         | _ => none)
        (match cs with
         | c :: rest => if '1' ≤ c ∧ c ≤ '9' then k (dval c) rest else none
         | _ => none)))

/-- The `%Y` regex `\d\d\d\d`: exactly four digits. -/
def pY4 {α : Type} (cs : List Char) (k : Nat → List Char → Option α) : Option α :=
  match cs with
  | c1 :: c2 :: c3 :: c4 :: rest =>
    if isDigitC c1 ∧ isDigitC c2 ∧ isDigitC c3 ∧ isDigitC c4
    then k (((dval c1 * 10 + dval c2) * 10 + dval c3) * 10 + dval c4) rest
    else none
  | _ => none

/-- A literal character of the format string. -/
def litC {α : Type} (x : Char) (cs : List Char) (k : List Char → Option α) : Option α :=
  match cs with
  | c :: rest => if c = x then k rest else none
  | _ => none

/-- Leftover check plus `datetime` construction: the tail of `strptime`. -/
def finishDate (y m d : Nat) (rest : List Char) : Option PyDate :=
  if rest = [] ∧ dateOK ⟨y, m, d⟩ then some ⟨y, m, d⟩ else none

/-- Model of `datetime.strptime(v, "%Y-%m-%d")`. -/
def strptimeYMD (cs : List Char) : Option PyDate :=
  pY4 cs (fun y r1 =>
    litC '-' r1 (fun r2 =>
      altM r2 (fun m r3 =>
        litC '-' r3 (fun r4 =>
          altD r4 (fun d r5 => finishDate y m d r5)))))

/-- Model of `datetime.strptime(v, "%d/%m/%Y")`. -/
def strptimeDMY (cs : List Char) : Option PyDate :=
  altD cs (fun d r1 =>
    litC '/' r1 (fun r2 =>
      altM r2 (fun m r3 =>
        litC '/' r3 (fun r4 =>
          pY4 r4 (fun y r5 => finishDate y m d r5)))))

/-- Model of `datetime.strptime(v, "%m/%d/%Y")`. -/
def strptimeMDY (cs : List Char) : Option PyDate :=
  altM cs (fun m r1 =>
    litC '/' r1 (fun r2 =>
      altD r2 (fun d r3 =>
        litC '/' r3 (fun r4 =>
          pY4 r4 (fun y r5 => finishDate y m d r5)))))

/-- Model of `datetime.fromisoformat` restricted to the date-only core
`YYYY-MM-DD` (zero-padded four-two-two digits, calendar-checked).  The
timestamp extensions of newer Python are outside the model; every string
this model accepts, `fromisoformat` accepts with the same value. -/
def pyFromISO (cs : List Char) : Option PyDate :=
  match cs with
  | [y1, y2, y3, y4, h1, m1, m2, h2, d1, d2] =>
    if isDigitC y1 ∧ isDigitC y2 ∧ isDigitC y3 ∧ isDigitC y4 ∧ h1 = '-' ∧
       isDigitC m1 ∧ isDigitC m2 ∧ h2 = '-' ∧ isDigitC d1 ∧ isDigitC d2
    then finishDate (((dval y1 * 10 + dval y2) * 10 + dval y3) * 10 + dval y4)
           (dval m1 * 10 + dval m2) (dval d1 * 10 + dval d2) []
    else none
  | _ => none

/-- Model of `datetime.strftime("%Y-%m-%d")` (zero-padded) as a character list. -/
def strftimeYMDL (t : PyDate) : List Char :=
  pad4 t.year ++ '-' :: (pad2 t.month ++ '-' :: pad2 t.day)

/-- Model of `datetime.strftime("%Y-%m-%d")` (zero-padded) as a `String`. -/
def strftimeYMD (t : PyDate) : String := ⟨strftimeYMDL t⟩

/-- Model of `_parse_date` from `src/utils.py`: strip; empty means no value; try the
three `strptime` formats in order; fall back to `fromisoformat` with every
`"Z"` removed; re-emit canonically. -/
def _parse_date (value : String) : Option String :=
  let v := pystrip value.data
  if v = [] then none
  else
    match strptimeYMD v with
    | some t => some (strftimeYMD t)
    | none =>
      match strptimeDMY v with
      | some t => some (strftimeYMD t)
      | none =>
        match strptimeMDY v with
        | some t => some (strftimeYMD t)
        | none =>
          match pyFromISO (removeAll 'Z' v) with
          | some t => some (strftimeYMD t)
          | none => none

/-! ## Amounts

Python `float(v)` accepts, after stripping whitespace and an optional
sign: the keywords `inf`/`infinity`/`nan` (case-insensitive), or a
decimal literal — digit groups that may be separated by single
underscores between digits, an optional point, an optional exponent.
The result is a `PyFloat`: a finite value (represented as an exact
rational), a signed infinity, or `nan`.  What the rational
representation idealizes away is only binary-float precision: values
are exact where a real `float` would round to 53 bits, and a huge
exponent yields a huge finite rational where a real `float` would
overflow to `inf`.  `round(x, 2)` is modelled as exact half-even
rounding to cents on finite values and as the identity on
`inf`/`nan`, as in Python. -/

/-- A Python `float` value as this program can observe it: a finite
value (an exact rational in this model), a signed infinity, or `nan`. -/
inductive PyFloat where
  | finite (q : ℚ)
  | inf (neg : Bool)
  | nan
deriving DecidableEq

/-- Scan the continuation of a digit group: plain digits, or a single
underscore followed by a digit (Python allows `1_000`); anything else —
including a trailing or doubled underscore — stops the scan.  Returns
the digits (underscores dropped) and the unconsumed rest. -/
def scanTail : List Char → List Char × List Char
  | [] => ([], [])
  | c :: r =>
    if isDigitC c then
      ((c :: (scanTail r).1), (scanTail r).2)
    else if c = '_' then
      match r with
      | c2 :: r2 =>
        if isDigitC c2 then ((c2 :: (scanTail r2).1), (scanTail r2).2)
        else ([], c :: r)
      | [] => ([], [c])
    else ([], c :: r)

/-- Scan a digit group of a float literal: it must start with a digit
(a leading underscore is not consumed), then `scanTail`. -/
def scanDigits (cs : List Char) : List Char × List Char :=
  match cs with
  | [] => ([], [])
  | c :: r =>
    if isDigitC c then ((c :: (scanTail r).1), (scanTail r).2) else ([], cs)

/-- The exponent suffix of a float literal: `e`/`E` already consumed,
optional sign, at least one digit (underscore grouping allowed), nothing
after.  The value is carried as an explicit numerator `num` over
denominator `den` (so that the whole parse evaluates by kernel
reduction); the rational it denotes is `mkRat num den`, scaled by the
power of ten of the exponent. -/
def pfExpDigits (cs : List Char) (num : ℤ) (den : ℕ) (pos : Bool) : Option ℚ :=
  let ds := (scanDigits cs).1
  let rest := (scanDigits cs).2
  if ds = [] ∨ rest ≠ [] then none
  else some (if pos then mkRat (num * 10 ^ natval ds) den else mkRat num (den * 10 ^ natval ds))

/-- Optional exponent part of a float literal (`num`/`den` the mantissa). -/
def pfExp (cs : List Char) (num : ℤ) (den : ℕ) : Option ℚ :=
  match cs with
  | [] => some (mkRat num den)
  | c :: r =>
    if c = 'e' ∨ c = 'E' then
      match r with
      | '+' :: r2 => pfExpDigits r2 num den true
      | '-' :: r2 => pfExpDigits r2 num den false
      | _ => pfExpDigits r num den true
    else none

/-- Body of a float literal after the optional sign (`neg`): first the
case-insensitive keywords `inf`/`infinity`/`nan`, otherwise a decimal
literal.  The mantissa `ds1.ds2` denotes
`sgn * (natval ds1 + natval ds2 / 10 ^ ds2.length)`, carried as the
fraction `sgn * (natval ds1 * 10 ^ ds2.length + natval ds2)` over
`10 ^ ds2.length` (Python's `float("-nan")` is `nan`: the sign of `nan`
is not observable here). -/
def pfBody (cs : List Char) (neg : Bool) : Option PyFloat :=
  let low := cs.map Char.toLower
  if low = "inf".data ∨ low = "infinity".data then some (PyFloat.inf neg)
  else if low = "nan".data then some PyFloat.nan
  else
    let sgn : ℤ := if neg then -1 else 1
    let ds1 := (scanDigits cs).1
    let r1 := (scanDigits cs).2
    match r1 with
    | '.' :: r2 =>
      let ds2 := (scanDigits r2).1
      let r3 := (scanDigits r2).2
      if ds1 = [] ∧ ds2 = [] then none
      else (pfExp r3 (sgn * (natval ds1 * 10 ^ ds2.length + natval ds2))
        (10 ^ ds2.length)).map PyFloat.finite
    | _ =>
      if ds1 = [] then none
      else (pfExp r1 (sgn * natval ds1) 1).map PyFloat.finite

/-- A float literal after `float()`'s own whitespace stripping: optional
sign, then the body. -/
def pfSigned (cs : List Char) : Option PyFloat :=
  match cs with
  | [] => none
  | c :: r =>
    if c = '+' then pfBody r false
    else if c = '-' then pfBody r true
    else pfBody cs false

/-- Python `float(v)` (`None` = `ValueError`). -/
def pyFloat (cs : List Char) : Option PyFloat := pfSigned (pystrip cs)

/-- Round a rational to the nearest integer, ties to even (Python's
`round` policy), computed on the reduced fraction: `n` is the floor
(`Int.fdiv` is floor division and `q.den` is positive), `r` the
remainder, and `2 * r` against `q.den` decides below/above/at the
half. -/
def roundHE (q : ℚ) : ℤ :=
  let n := q.num.fdiv q.den
  let r := q.num - n * q.den
  if 2 * r < (q.den : ℤ) then n
  else if (q.den : ℤ) < 2 * r then n + 1
  else if n % 2 = 0 then n else n + 1

/-- The rational `q * 100`, formed directly on the fraction. -/
def qTimes100 (q : ℚ) : ℚ := mkRat (q.num * 100) q.den

/-- Python `round(x, 2)` on finite values. -/
def pyRound2 (q : ℚ) : ℚ := mkRat (roundHE (qTimes100 q)) 100

/-- Python `round(x, 2)` on a `float` value: half-even cents rounding on
finite values, identity on `inf` and `nan`. -/
def pyRound2F : PyFloat → PyFloat
  | .finite q => .finite (pyRound2 q)
  | .inf neg => .inf neg
  | .nan => .nan

/-- Python `amt <= 0` on a `float` value: ordinary comparison when
finite, true exactly for `-inf` among the infinities, and false for
`nan` (every comparison with `nan` is false). -/
def pyLe0 : PyFloat → Bool
  | .finite q => decide (q ≤ 0)
  | .inf neg => neg
  | .nan => false

/-- Model of `_parse_amount` from `src/utils.py`:
`v = (value or "").strip().replace("$", "").replace(",", "")`; empty means
no value; `float(v)` failure means no value; `amt <= 0` means no value
(so `nan` and `+inf`, for which the comparison is false, pass through);
otherwise `round(amt, 2)`. -/
def _parse_amount (value : String) : Option PyFloat :=
  let v := removeAll ',' (removeAll '$' (pystrip value.data))
  if v = [] then none
  else
    match pyFloat v with
    | none => none
    | some amt => if pyLe0 amt then none else some (pyRound2F amt)

/-- Python `f"{x:.2f}"`: round to cents half-even and print with exactly
two decimals when finite; `inf` and `nan` print as themselves. -/
def fmtF2 : PyFloat → String
  | .finite q =>
    let n := roundHE (qTimes100 q)
    if n < 0 then ⟨'-' :: (repNat ((-n).toNat / 100) ++ '.' :: pad2 ((-n).toNat % 100))⟩
    else ⟨repNat (n.toNat / 100) ++ '.' :: pad2 (n.toNat % 100)⟩
  | .inf neg => if neg then "-inf" else "inf"
  | .nan => "nan"

/-- A loaded amount is never negative, in `float` semantics: nonnegative
when finite, positive when infinite, and `nan` compares negative to
nothing. -/
def amountNotNeg : PyFloat → Prop
  | .finite q => 0 ≤ q
  | .inf neg => neg = false
  | .nan => True

/-! ## The Expense store

A CSV file is a list of records, each a list of field strings.
`csv.DictReader` turns a data row into a dict keyed by the header row:
`dict(zip(fieldnames, row))`, then every fieldname beyond the row's
length is set to the restval `None`.  Looking up a key therefore finds
the LAST column bearing that header (later duplicates overwrite earlier
ones), and yields Python `None` when that column is beyond the row's
end; the code passes values through `str(...)`, so `None` becomes the
string `"None"`. -/

/-- The `Expense` dataclass of `src/utils.py` (amounts as modelled
`float` values). -/
structure Expense where
  date : String
  amount : PyFloat
  category : String
  description : String
deriving DecidableEq

/-- The index of the last column whose header equals `key`. -/
def lastIdx (fieldnames : List String) (key : String) : Option Nat :=
  match fieldnames.reverse.findIdx? (fun h => h = key) with
  | some j => some (fieldnames.length - 1 - j)
  | none => none

/-- Model of `str(row.get(key, ""))` for a `csv.DictReader` row. -/
def row_get (fieldnames row : List String) (key : String) : String :=
  match lastIdx fieldnames key with
  | none => ""
  | some i =>
    match row.get? i with
    | some v => v
    | none => "None"

/-- Model of `field_map.get(k, "")` where
`field_map = {_standardize_col_name(h): h for h in fieldnames}`
(dict comprehension: a later header with the same standardized name
overwrites an earlier one). -/
def field_map_get (fieldnames : List String) (k : String) : String :=
  match fieldnames.reverse.find? (fun h => _standardize_col_name h = k) with
  | some h => h
  | none => ""

/-- The body of `load_expenses`'s row loop: fetch the four raw fields via
the field map, parse/trim them, and skip the row if
`not date or amount is None or not category or not description`
(a `date` of `None` or `""` is falsy; the amount is only checked against
`None`); otherwise build the `Expense` from the parsed values (the
`getD` defaults are unreachable under the guard). -/
def processRow (fieldnames row : List String) : Option Expense :=
  let raw_date := row_get fieldnames row (field_map_get fieldnames "date")
  let raw_amount := row_get fieldnames row (field_map_get fieldnames "amount")
  let raw_category := row_get fieldnames row (field_map_get fieldnames "category")
  let raw_desc := row_get fieldnames row (field_map_get fieldnames "description")
  let date := _parse_date raw_date
  let amount := _parse_amount raw_amount
  let category := pystripS raw_category
  let description := pystripS raw_desc
  if date = none ∨ date = some "" ∨ amount = none ∨ category = "" ∨ description = ""
  then none
  else some ⟨date.getD "", amount.getD (PyFloat.finite 0), category, description⟩

/-- The pure part of `load_expenses`: given the file's records, return the
cleaned list (`DictReader` skips blank records; an empty fieldnames row
yields `[]`). -/
def load_rows (file : List (List String)) : List Expense :=
  match file with
  | [] => []
  | fieldnames :: rows =>
    if fieldnames = [] then []
    else rows.filterMap (fun r => if r = [] then none else processRow fieldnames r)

/-- Model of `ensure_csv_header` from `src/utils.py` on the modelled file state:
a nonexistent (`none`) or zero-byte (`some []`) file is initialized with
just `STANDARD_COLUMNS`; any other file is left untouched.  Returns the
file's content after the call. -/
def ensure_csv_header (st : Option (List (List String))) : List (List String) :=
  match st with
  | none => [STANDARD_COLUMNS]
  | some [] => [STANDARD_COLUMNS]
  | some f => f

/-- Model of `load_expenses` from `src/utils.py`: ensure the header, then read and
clean every row. -/
def load_expenses (st : Option (List (List String))) : List Expense :=
  load_rows (ensure_csv_header st)

/-- Model of `save_expenses` from `src/utils.py`: overwrite with the canonical
header and one record per expense, the amount in `:.2f` format. -/
def save_expenses (expenses : List Expense) : List (List String) :=
  STANDARD_COLUMNS :: expenses.map (fun e => [e.date, fmtF2 e.amount, e.category, e.description])

/-- The validity predicate of the spec's data model: date canonical
(`strftime` image of a constructible `datetime` date), amount strictly
positive and an exact number of cents, category and description non-empty
trimmed text. -/
def isValidExpense (e : Expense) : Prop :=
  (∃ t : PyDate, dateOK t = true ∧ e.date = strftimeYMD t) ∧
  (∃ n : ℕ, 1 ≤ n ∧ e.amount = PyFloat.finite ((n : ℚ) / 100)) ∧
  pystripS e.category = e.category ∧ e.category ≠ "" ∧
  pystripS e.description = e.description ∧ e.description ≠ ""

/-- Body of `_parse_amount` after the character cleanup: the emptiness
check, `float` conversion, sign check and rounding applied to the cleaned
character list. -/
def amtCore (v : List Char) : Option PyFloat :=
  if v = [] then none
  else
    match pyFloat v with
    | none => none
    | some amt => if pyLe0 amt then none else some (pyRound2F amt)

/-- Delete every `'$'` and `','` of a string (the claim's cleanup map,
applied to the raw input without stripping). -/
def stripCurrencyChars (s : String) : String := ⟨removeAll ',' (removeAll '$' s.data)⟩

/-- The bank-style header row of the header-synonym property. -/
def bankHeader : List String := ["Txn Date", "Debit", "Type", "Merchant"]

/-! ## Basic facts about digits and whitespace -/

theorem dval_dchar {d : Nat} (h : d < 10) : dval (dchar d) = d := by
  interval_cases d <;> decide

theorem isDigitC_dchar {d : Nat} (h : d < 10) : isDigitC (dchar d) = true := by
  interval_cases d <;> decide

theorem not_pySpace_dchar {d : Nat} (h : d < 10) : isPySpace (dchar d) = false := by
  interval_cases d <;> decide

theorem dchar_ne {d : Nat} (h : d < 10) :
    dchar d ≠ '$' ∧ dchar d ≠ ',' ∧ dchar d ≠ '+' ∧ dchar d ≠ '-' := by
  interval_cases d <;> exact ⟨by decide, by decide, by decide, by decide⟩

theorem pySpace_ne {c : Char} (h : isPySpace c = true) : c ≠ '$' ∧ c ≠ ',' := by
  have h' : c = ' ' ∨ c = '\t' ∨ c = '\n' ∨ c = '\r' ∨ c = '\x0b' ∨ c = '\x0c' := by
    simpa [isPySpace, or_assoc] using h
  rcases h' with h' | h' | h' | h' | h' | h' <;> subst h' <;> exact ⟨by decide, by decide⟩

/-! ## Lemmas about stripping -/

theorem dropWhile_append_of_all {p : Char → Bool} {a : List Char} (t : List Char)
    (h : ∀ c ∈ a, p c = true) : (a ++ t).dropWhile p = t.dropWhile p := by
  induction a with
  | nil => rfl
  | cons c a ih =>
    have hc : p c = true := h c (List.mem_cons_self c a)
    simp only [List.cons_append, List.dropWhile_cons, hc, if_true]
    exact ih (fun x hx => h x (List.mem_cons_of_mem c hx))

theorem dropWhile_eq_nil_of_all {p : Char → Bool} {a : List Char}
    (h : ∀ c ∈ a, p c = true) : a.dropWhile p = [] := by
  have := dropWhile_append_of_all (p := p) [] h
  simpa using this

theorem dropWhile_eq_self_of_all_neg {p : Char → Bool} {l : List Char}
    (h : ∀ c ∈ l, p c = false) : l.dropWhile p = l := by
  cases l with
  | nil => rfl
  | cons c l => simp [List.dropWhile_cons, h c (List.mem_cons_self c l)]

theorem dropWhile_cons_head {p : Char → Bool} {l r : List Char} {c : Char}
    (h : l.dropWhile p = c :: r) : p c = false := by
  induction l with
  | nil => simp at h
  | cons d l ih =>
    by_cases hd : p d
    · simp only [List.dropWhile_cons, hd, if_true] at h
      exact ih h
    · simp only [List.dropWhile_cons, hd, if_false] at h
      cases h
      simpa using hd

theorem trimRight_cons_not_ws {c : Char} (l : List Char) (h : isPySpace c = false) :
    trimRight (c :: l) = c :: trimRight l := by
  cases hr : trimRight l with
  | nil => simp [trimRight, hr, h]
  | cons d r => simp [trimRight, hr]

theorem trimRight_eq_nil_of_all {b : List Char}
    (h : ∀ c ∈ b, isPySpace c = true) : trimRight b = [] := by
  induction b with
  | nil => rfl
  | cons c b ih =>
    have hb : trimRight b = [] := ih (fun x hx => h x (List.mem_cons_of_mem c hx))
    simp [trimRight, hb, h c (List.mem_cons_self c b)]

theorem trimRight_cons_eq (c : Char) (l : List Char) :
    trimRight (c :: l) =
      match trimRight l with
      | [] => if isPySpace c then [] else [c]
      | r => c :: r := rfl

theorem trimRight_append_of_all {b : List Char} (t : List Char)
    (h : ∀ c ∈ b, isPySpace c = true) : trimRight (t ++ b) = trimRight t := by
  induction t with
  | nil => simpa using trimRight_eq_nil_of_all h
  | cons c t ih =>
    rw [List.cons_append, trimRight_cons_eq, ih, ← trimRight_cons_eq]

theorem trimRight_idem (l : List Char) : trimRight (trimRight l) = trimRight l := by
  induction l with
  | nil => rfl
  | cons c l ih =>
    cases h : trimRight l with
    | nil =>
      by_cases hc : isPySpace c
      · simp [trimRight_cons_eq, h, hc, trimRight]
      · simp [trimRight_cons_eq, h, hc, trimRight]
    | cons d r =>
      have h1 : trimRight (c :: l) = c :: d :: r := by simp [trimRight_cons_eq, h]
      have h2 : trimRight (d :: r) = d :: r := by
        have := ih
        rwa [h] at this
      rw [h1, trimRight_cons_eq, h2]

theorem trimRight_decomp (l : List Char) :
    ∃ b, l = trimRight l ++ b ∧ ∀ c ∈ b, isPySpace c = true := by
  induction l with
  | nil => exact ⟨[], rfl, by simp⟩
  | cons c l ih =>
    obtain ⟨b, hb, hws⟩ := ih
    cases h : trimRight l with
    | nil =>
      by_cases hc : isPySpace c
      · refine ⟨c :: b, ?_, ?_⟩
        · simp [trimRight, h, hc]
          rw [h] at hb
          simpa using hb
        · intro x hx
          rcases List.mem_cons.mp hx with hx | hx
          · subst hx; exact hc
          · exact hws x hx
      · refine ⟨b, ?_, hws⟩
        simp [trimRight, h, hc]
        rw [h] at hb
        simpa using hb
    | cons d r =>
      refine ⟨b, ?_, hws⟩
      simp only [trimRight, h]
      rw [h] at hb
      simpa using hb

theorem pystrip_append_ws_left {a : List Char} (t : List Char)
    (h : ∀ c ∈ a, isPySpace c = true) : pystrip (a ++ t) = pystrip t := by
  unfold pystrip trimLeft
  rw [dropWhile_append_of_all t h]

theorem trimLeft_append_of_ne_nil {t : List Char} (b : List Char)
    (h : trimLeft t ≠ []) : trimLeft (t ++ b) = trimLeft t ++ b := by
  induction t with
  | nil => simp [trimLeft] at h
  | cons c t ih =>
    by_cases hc : isPySpace c
    · have h' : trimLeft t ≠ [] := by
        simpa [trimLeft, List.dropWhile_cons, hc] using h
      simpa [trimLeft, List.dropWhile_cons, hc] using ih h'
    · simp [trimLeft, List.dropWhile_cons, hc]

theorem pystrip_append_ws_right {b : List Char} (t : List Char)
    (h : ∀ c ∈ b, isPySpace c = true) : pystrip (t ++ b) = pystrip t := by
  by_cases ht : trimLeft t = []
  · have hallt : ∀ c ∈ t, isPySpace c = true := List.dropWhile_eq_nil_iff.mp ht
    have h1 : trimLeft (t ++ b) = [] := by
      unfold trimLeft
      exact List.dropWhile_eq_nil_iff.mpr (by
        intro x hx
        rcases List.mem_append.mp hx with hx | hx
        · exact hallt x hx
        · exact h x hx)
    unfold pystrip
    rw [h1, ht]
  · unfold pystrip
    rw [trimLeft_append_of_ne_nil b ht, trimRight_append_of_all _ h]

theorem pystrip_eq_self_of_no_ws {l : List Char}
    (h : ∀ c ∈ l, isPySpace c = false) : pystrip l = l := by
  unfold pystrip trimLeft
  rw [dropWhile_eq_self_of_all_neg h]
  induction l with
  | nil => rfl
  | cons c l ih =>
    rw [trimRight_cons_not_ws l (h c (List.mem_cons_self c l))]
    rw [ih (fun x hx => h x (List.mem_cons_of_mem c hx))]

theorem pystrip_idem (l : List Char) : pystrip (pystrip l) = pystrip l := by
  unfold pystrip
  cases h : trimLeft l with
  | nil => simp [trimRight, trimLeft]
  | cons c r =>
    have hc : isPySpace c = false := dropWhile_cons_head h
    rw [trimRight_cons_not_ws r hc]
    have h1 : trimLeft (c :: trimRight r) = c :: trimRight r := by
      simp [trimLeft, List.dropWhile_cons, hc]
    rw [h1, trimRight_cons_not_ws _ hc, trimRight_idem]

theorem mem_pystrip {c : Char} {l : List Char} (h : c ∈ pystrip l) : c ∈ l := by
  unfold pystrip at h
  obtain ⟨b, hb, _⟩ := trimRight_decomp (trimLeft l)
  have h1 : c ∈ trimLeft l := by
    rw [hb]
    exact List.mem_append_left _ h
  exact (List.dropWhile_sublist _).subset h1

/-! ## Lemmas about character removal and the amount cleanup -/

theorem removeAll_eq_self {x : Char} {l : List Char} (h : ∀ c ∈ l, c ≠ x) :
    removeAll x l = l := by
  unfold removeAll
  rw [List.filter_eq_self]
  intro a ha
  simpa using h a ha

theorem removeAll_append (x : Char) (a b : List Char) :
    removeAll x (a ++ b) = removeAll x a ++ removeAll x b := by
  unfold removeAll
  exact List.filter_append a b

theorem mem_removeAll {x c : Char} {l : List Char} (h : c ∈ removeAll x l) :
    c ∈ l ∧ c ≠ x := by
  unfold removeAll at h
  have := List.mem_filter.mp h
  exact ⟨this.1, by simpa using this.2⟩

/-- Deleting `'$'` and `','` leaves an all-whitespace list unchanged. -/
theorem removeAll_ws_eq_self {l : List Char} (h : ∀ c ∈ l, isPySpace c = true) :
    removeAll ',' (removeAll '$' l) = l := by
  rw [removeAll_eq_self (fun c hc => (pySpace_ne (h c hc)).1),
      removeAll_eq_self (fun c hc => (pySpace_ne (h c hc)).2)]

/-- The cleanup and the strip of `_parse_amount` commute up to a final
strip: stripping before deleting `'$'`/`','` does not change the result
of a strip after deletion. -/
theorem strip_removeAll_strip (x : List Char) :
    pystrip (removeAll ',' (removeAll '$' x)) =
      pystrip (removeAll ',' (removeAll '$' (pystrip x))) := by
  have hx : x = x.takeWhile isPySpace ++ trimLeft x :=
    (List.takeWhile_append_dropWhile isPySpace x).symm
  have hws1 : ∀ c ∈ x.takeWhile isPySpace, isPySpace c = true :=
    fun c hc => List.mem_takeWhile_imp hc
  obtain ⟨b, hb, hws2⟩ := trimRight_decomp (trimLeft x)
  calc pystrip (removeAll ',' (removeAll '$' x))
      = pystrip (removeAll ',' (removeAll '$' (x.takeWhile isPySpace ++ trimLeft x))) := by
        rw [← hx]
    _ = pystrip (x.takeWhile isPySpace ++ removeAll ',' (removeAll '$' (trimLeft x))) := by
        rw [removeAll_append, removeAll_append, removeAll_ws_eq_self hws1]
    _ = pystrip (removeAll ',' (removeAll '$' (trimLeft x))) :=
        pystrip_append_ws_left _ hws1
    _ = pystrip (removeAll ',' (removeAll '$' (trimRight (trimLeft x) ++ b))) := by rw [← hb]
    _ = pystrip (removeAll ',' (removeAll '$' (trimRight (trimLeft x))) ++ b) := by
        rw [removeAll_append, removeAll_append, removeAll_ws_eq_self hws2]
    _ = pystrip (removeAll ',' (removeAll '$' (pystrip x))) :=
        pystrip_append_ws_right _ hws2

theorem pyFloat_nil : pyFloat [] = none := rfl

theorem pyFloat_pystrip (v : List Char) : pyFloat (pystrip v) = pyFloat v := by
  unfold pyFloat
  rw [pystrip_idem]

/-- The core of `_parse_amount` is insensitive to surrounding whitespace
of its cleaned argument, because `float()` strips it again and an
all-whitespace argument fails both the emptiness check and `float()`. -/
theorem amtCore_pystrip (v : List Char) : amtCore v = amtCore (pystrip v) := by
  by_cases hv : v = []
  · subst hv; rfl
  · by_cases hs : pystrip v = []
    · unfold amtCore
      rw [if_neg hv, hs, if_pos rfl]
      rw [← pyFloat_pystrip, hs, pyFloat_nil]
    · unfold amtCore
      rw [if_neg hv, if_neg hs, pyFloat_pystrip]

/-! ## Lemmas about decimal digit strings -/

theorem takeWhile_eq_self_of_all {p : Char → Bool} {l : List Char}
    (h : ∀ c ∈ l, p c = true) : l.takeWhile p = l := by
  induction l with
  | nil => rfl
  | cons c l ih =>
    simp only [List.takeWhile_cons, h c (List.mem_cons_self c l), if_true]
    rw [ih (fun x hx => h x (List.mem_cons_of_mem c hx))]

theorem takeWhile_append_stop {p : Char → Bool} {a : List Char} {b : Char} (t : List Char)
    (ha : ∀ c ∈ a, p c = true) (hb : p b = false) :
    (a ++ b :: t).takeWhile p = a ∧ (a ++ b :: t).dropWhile p = b :: t := by
  induction a with
  | nil => simp [List.takeWhile_cons, List.dropWhile_cons, hb]
  | cons c a ih =>
    have hc : p c = true := ha c (List.mem_cons_self c a)
    have ih' := ih (fun x hx => ha x (List.mem_cons_of_mem c hx))
    constructor
    · simp only [List.cons_append, List.takeWhile_cons, hc, if_true, ih'.1]
    · simp only [List.cons_append, List.dropWhile_cons, hc, if_true, ih'.2]

theorem natval_rev_digits (l : List ℕ) (acc : ℕ) (h : ∀ d ∈ l, d < 10) :
    (l.reverse.map dchar).foldl (fun a c => a * 10 + dval c) acc
      = acc * 10 ^ l.length + Nat.ofDigits 10 l := by
  induction l generalizing acc with
  | nil => simp [Nat.ofDigits]
  | cons d l ih =>
    rw [List.reverse_cons, List.map_append, List.foldl_append]
    have hd : d < 10 := h d (List.mem_cons_self d l)
    rw [ih acc (fun x hx => h x (List.mem_cons_of_mem d hx))]
    simp only [List.map_cons, List.map_nil, List.foldl_cons, List.foldl_nil,
      dval_dchar hd, Nat.ofDigits_cons, List.length_cons, pow_succ]
    ring

theorem natval_repNat (n : ℕ) : natval (repNat n) = n := by
  unfold repNat
  by_cases h : n = 0
  · subst h; decide
  · rw [if_neg h]
    unfold natval
    rw [natval_rev_digits (Nat.digits 10 n) 0
      (fun d hd => Nat.digits_lt_base (by norm_num) hd)]
    simp [Nat.ofDigits_digits]

theorem repNat_chars {c : Char} {n : ℕ} (h : c ∈ repNat n) :
    ∃ d, d < 10 ∧ c = dchar d := by
  unfold repNat at h
  by_cases h0 : n = 0
  · rw [if_pos h0] at h
    simp only [List.mem_singleton] at h
    exact ⟨0, by norm_num, by rw [h]; decide⟩
  · rw [if_neg h0, List.mem_map] at h
    obtain ⟨d, hd, rfl⟩ := h
    exact ⟨d, Nat.digits_lt_base (by norm_num) (List.mem_reverse.mp hd), rfl⟩

theorem repNat_ne_nil (n : ℕ) : repNat n ≠ [] := by
  unfold repNat
  by_cases h : n = 0
  · simp [h]
  · rw [if_neg h]
    simp [Nat.digits_ne_nil_iff_ne_zero, h]

theorem pad2_chars {c : Char} {n : ℕ} (h : c ∈ pad2 n) :
    ∃ d, d < 10 ∧ c = dchar d := by
  unfold pad2 at h
  rcases List.mem_cons.mp h with h | h
  · exact ⟨n / 10 % 10, Nat.mod_lt _ (by norm_num), h⟩
  · rcases List.mem_cons.mp h with h | h
    · exact ⟨n % 10, Nat.mod_lt _ (by norm_num), h⟩
    · simp at h

theorem natval_pad2 {n : ℕ} (h : n ≤ 99) : natval (pad2 n) = n := by
  unfold natval pad2
  have h1 : n / 10 % 10 < 10 := Nat.mod_lt _ (by norm_num)
  have h2 : n % 10 < 10 := Nat.mod_lt _ (by norm_num)
  simp only [List.foldl_cons, List.foldl_nil, dval_dchar h1, dval_dchar h2]
  omega

/-! ## Inversion of the cent formatter through the amount parser -/

theorem centsChars (n : ℕ) :
    ∀ c ∈ repNat (n / 100) ++ '.' :: pad2 (n % 100),
      isPySpace c = false ∧ c ≠ '$' ∧ c ≠ ',' ∧ isDigitC c = true ∨ c = '.' := by
  intro c hc
  rcases List.mem_append.mp hc with hc | hc
  · obtain ⟨d, hd, rfl⟩ := repNat_chars hc
    exact Or.inl ⟨not_pySpace_dchar hd, (dchar_ne hd).1, (dchar_ne hd).2.1, isDigitC_dchar hd⟩
  · rcases List.mem_cons.mp hc with hc | hc
    · exact Or.inr hc
    · obtain ⟨d, hd, rfl⟩ := pad2_chars hc
      exact Or.inl ⟨not_pySpace_dchar hd, (dchar_ne hd).1, (dchar_ne hd).2.1, isDigitC_dchar hd⟩

theorem centsChars_no_ws (n : ℕ) :
    ∀ c ∈ repNat (n / 100) ++ '.' :: pad2 (n % 100), isPySpace c = false := by
  intro c hc
  rcases centsChars n c hc with h | h
  · exact h.1
  · rw [h]; decide

theorem centsChars_keep (n : ℕ) :
    ∀ c ∈ repNat (n / 100) ++ '.' :: pad2 (n % 100), c ≠ '$' ∧ c ≠ ',' := by
  intro c hc
  rcases centsChars n c hc with h | h
  · exact ⟨h.2.1, h.2.2.1⟩
  · rw [h]; exact ⟨by decide, by decide⟩

theorem scanTail_cons (c : Char) (r : List Char) :
    scanTail (c :: r) =
      if isDigitC c then ((c :: (scanTail r).1), (scanTail r).2)
      else if c = '_' then
        match r with
        | c2 :: r2 =>
          if isDigitC c2 then ((c2 :: (scanTail r2).1), (scanTail r2).2)
          else ([], c :: r)
        | [] => ([], [c])
      else ([], c :: r) := by
  rw [scanTail.eq_def]

theorem scanDigits_cons (c : Char) (r : List Char) :
    scanDigits (c :: r) =
      if isDigitC c then ((c :: (scanTail r).1), (scanTail r).2) else ([], c :: r) := by
  rw [scanDigits.eq_def]

theorem scanTail_append_stop {a : List Char} {b : Char} (t : List Char)
    (ha : ∀ c ∈ a, isDigitC c = true) (hb : isDigitC b = false) (hbu : b ≠ '_') :
    scanTail (a ++ b :: t) = (a, b :: t) := by
  induction a with
  | nil =>
    rw [List.nil_append, scanTail_cons, if_neg (by simp [hb]), if_neg hbu]
  | cons c a ih =>
    have hc := ha c (List.mem_cons_self c a)
    rw [List.cons_append, scanTail_cons, if_pos hc,
      ih (fun x hx => ha x (List.mem_cons_of_mem c hx))]

theorem scanTail_all {a : List Char} (ha : ∀ c ∈ a, isDigitC c = true) :
    scanTail a = (a, []) := by
  induction a with
  | nil => rfl
  | cons c a ih =>
    rw [scanTail_cons, if_pos (ha c (List.mem_cons_self c a)),
      ih (fun x hx => ha x (List.mem_cons_of_mem c hx))]

theorem scanDigits_append_stop {a : List Char} {b : Char} (t : List Char)
    (ha : ∀ c ∈ a, isDigitC c = true) (hb : isDigitC b = false) (hbu : b ≠ '_') :
    scanDigits (a ++ b :: t) = (a, b :: t) := by
  cases a with
  | nil =>
    rw [List.nil_append, scanDigits_cons, if_neg (by simp [hb])]
  | cons c a' =>
    rw [List.cons_append, scanDigits_cons,
      if_pos (ha c (List.mem_cons_self c a')),
      scanTail_append_stop t (fun x hx => ha x (List.mem_cons_of_mem c hx)) hb hbu]

theorem scanDigits_all {a : List Char} (ha : ∀ c ∈ a, isDigitC c = true) :
    scanDigits a = (a, []) := by
  cases a with
  | nil => rfl
  | cons c a' =>
    rw [scanDigits_cons, if_pos (ha c (List.mem_cons_self c a')),
      scanTail_all (fun x hx => ha x (List.mem_cons_of_mem c hx))]

theorem toLower_dchar {d : ℕ} (h : d < 10) : Char.toLower (dchar d) = dchar d := by
  interval_cases d <;> decide

theorem digit_ne {c x : Char} (h : isDigitC c = true) (hx : isDigitC x = false) :
    c ≠ x := by
  intro he
  rw [he] at h
  rw [h] at hx
  exact absurd hx (by decide)

theorem digitHead_ne_keyword {c : Char} {cs : List Char} {x : Char} {ws : List Char}
    (hc : isDigitC c = true) (hlow : Char.toLower c = c)
    (hx : isDigitC x = false) :
    (c :: cs).map Char.toLower ≠ x :: ws := by
  intro hEq
  rw [List.map_cons] at hEq
  injection hEq with h1 _
  rw [hlow] at h1
  exact (digit_ne hc hx) h1

theorem repNat_head (n : ℕ) :
    ∃ c cs, repNat n = c :: cs ∧ isDigitC c = true ∧ Char.toLower c = c := by
  obtain ⟨c, cs, hrep⟩ : ∃ c cs, repNat n = c :: cs := by
    cases h : repNat n with
    | nil => exact absurd h (repNat_ne_nil _)
    | cons c cs => exact ⟨c, cs, rfl⟩
  obtain ⟨d, hd, hcd⟩ := repNat_chars
    (show c ∈ repNat n by rw [hrep]; exact List.mem_cons_self c cs)
  subst hcd
  exact ⟨_, cs, hrep, isDigitC_dchar hd, toLower_dchar hd⟩

theorem pfBody_cents (n : ℕ) :
    pfBody (repNat (n / 100) ++ '.' :: pad2 (n % 100)) false
      = some (PyFloat.finite ((n : ℚ) / 100)) := by
  obtain ⟨c, cs, hrep, hcdig, hclow⟩ := repNat_head (n / 100)
  have hrepdig : ∀ c' ∈ repNat (n / 100), isDigitC c' = true := fun c' hc' => by
    obtain ⟨d, hd, rfl⟩ := repNat_chars hc'
    exact isDigitC_dchar hd
  have hpaddig : ∀ c' ∈ pad2 (n % 100), isDigitC c' = true := fun c' hc' => by
    obtain ⟨d, hd, rfl⟩ := pad2_chars hc'
    exact isDigitC_dchar hd
  have hkw1 : ¬((repNat (n / 100) ++ '.' :: pad2 (n % 100)).map Char.toLower
      = "inf".data
      ∨ (repNat (n / 100) ++ '.' :: pad2 (n % 100)).map Char.toLower
      = "infinity".data) := by
    rw [hrep, List.cons_append]
    push_neg
    exact ⟨digitHead_ne_keyword hcdig hclow (by decide),
      digitHead_ne_keyword hcdig hclow (by decide)⟩
  have hkw2 : ¬((repNat (n / 100) ++ '.' :: pad2 (n % 100)).map Char.toLower
      = "nan".data) := by
    rw [hrep, List.cons_append]
    exact digitHead_ne_keyword hcdig hclow (by decide)
  have hstop := scanDigits_append_stop (a := repNat (n / 100)) (b := '.')
    (pad2 (n % 100)) hrepdig (by decide) (by decide)
  have hall := scanDigits_all hpaddig
  simp only [pfBody]
  rw [if_neg hkw1, if_neg hkw2, hstop]
  simp only [hall]
  rw [if_neg (by simp [pad2])]
  have hlen : (pad2 (n % 100)).length = 2 := rfl
  rw [hlen, pfExp]
  simp only [Option.map, if_neg (by simp : ¬ (false = true))]
  congr 2
  rw [natval_repNat, natval_pad2 (Nat.le_of_lt_succ (Nat.mod_lt _ (by norm_num)))]
  have harith : (1 : ℤ) * (↑(n / 100) * 10 ^ 2 + ↑(n % 100)) = (n : ℤ) := by
    have : n / 100 * 100 + n % 100 = n := by omega
    push_cast
    omega
  rw [harith, Rat.mkRat_eq_div]
  norm_num

theorem pyFloat_cents (n : ℕ) :
    pyFloat (repNat (n / 100) ++ '.' :: pad2 (n % 100))
      = some (PyFloat.finite ((n : ℚ) / 100)) := by
  unfold pyFloat
  rw [pystrip_eq_self_of_no_ws (centsChars_no_ws n)]
  obtain ⟨c, cs, hrep⟩ : ∃ c cs, repNat (n / 100) = c :: cs := by
    cases h : repNat (n / 100) with
    | nil => exact absurd h (repNat_ne_nil _)
    | cons c cs => exact ⟨c, cs, rfl⟩
  have hc : ∃ d, d < 10 ∧ c = dchar d := repNat_chars (by rw [hrep]; exact List.mem_cons_self c cs)
  obtain ⟨d, hd, rfl⟩ := hc
  rw [hrep, List.cons_append]
  show (if dchar d = '+' then pfBody (cs ++ '.' :: pad2 (n % 100)) false
    else if dchar d = '-' then pfBody (cs ++ '.' :: pad2 (n % 100)) true
    else pfBody (dchar d :: (cs ++ '.' :: pad2 (n % 100))) false)
    = some (PyFloat.finite ((n : ℚ) / 100))
  rw [if_neg (dchar_ne hd).2.2.1, if_neg (dchar_ne hd).2.2.2]
  rw [← List.cons_append, ← hrep]
  exact pfBody_cents n

theorem roundHE_natCast (n : ℕ) : roundHE ((n : ℚ)) = (n : ℤ) := by
  unfold roundHE
  rw [Rat.num_natCast, Rat.den_natCast]
  simp

theorem qTimes100_eq (q : ℚ) : qTimes100 q = q * 100 := by
  unfold qTimes100
  rw [Rat.mkRat_eq_div]
  push_cast
  rw [show ((q.num : ℚ) * 100) / (q.den : ℚ) = ((q.num : ℚ) / q.den) * 100 by ring,
    Rat.num_div_den]

theorem pyRound2_cents (n : ℕ) : pyRound2 ((n : ℚ) / 100) = (n : ℚ) / 100 := by
  unfold pyRound2
  rw [qTimes100_eq, div_mul_cancel₀ _ (by norm_num : (100 : ℚ) ≠ 0), roundHE_natCast,
    Rat.mkRat_eq_div]
  norm_num

theorem fmtF2_cents (n : ℕ) :
    fmtF2 (PyFloat.finite ((n : ℚ) / 100))
      = ⟨repNat (n / 100) ++ '.' :: pad2 (n % 100)⟩ := by
  simp only [fmtF2]
  rw [qTimes100_eq, div_mul_cancel₀ _ (by norm_num : (100 : ℚ) ≠ 0), roundHE_natCast]
  rw [if_neg (by omega : ¬ ((n : ℤ) < 0))]
  simp

theorem pyLe0_cents {n : ℕ} (hn : 1 ≤ n) :
    pyLe0 (PyFloat.finite ((n : ℚ) / 100)) = false := by
  simp only [pyLe0, decide_eq_false_iff_not, not_le]
  have : (0 : ℚ) < n := by exact_mod_cast hn
  positivity

theorem _parse_amount_fmtF2 {n : ℕ} (hn : 1 ≤ n) :
    _parse_amount (fmtF2 (PyFloat.finite ((n : ℚ) / 100)))
      = some (PyFloat.finite ((n : ℚ) / 100)) := by
  rw [fmtF2_cents]
  have h1 : _parse_amount ⟨repNat (n / 100) ++ '.' :: pad2 (n % 100)⟩
      = amtCore (removeAll ',' (removeAll '$'
          (pystrip (repNat (n / 100) ++ '.' :: pad2 (n % 100))))) := rfl
  rw [h1, pystrip_eq_self_of_no_ws (centsChars_no_ws n),
      removeAll_eq_self (fun c hc => (centsChars_keep n c hc).1),
      removeAll_eq_self (fun c hc => (centsChars_keep n c hc).2)]
  unfold amtCore
  rw [if_neg (by simp : ¬ (repNat (n / 100) ++ '.' :: pad2 (n % 100) = []))]
  rw [pyFloat_cents]
  show (if pyLe0 (PyFloat.finite ((n : ℚ) / 100))
      then none else some (pyRound2F (PyFloat.finite ((n : ℚ) / 100))))
      = some (PyFloat.finite ((n : ℚ) / 100))
  rw [pyLe0_cents hn]
  simp only [Bool.false_eq_true, if_false, pyRound2F, pyRound2_cents]

/-! ## Inversion of the date formatter through `strptime` -/

theorem dchar_c0 : dchar 0 = '0' := by decide

theorem dchar_c1 : dchar 1 = '1' := by decide

theorem dchar_c2 : dchar 2 = '2' := by decide

theorem dchar_c3 : dchar 3 = '3' := by decide

theorem dchar_c4 : dchar 4 = '4' := by decide

theorem dchar_c5 : dchar 5 = '5' := by decide

theorem dchar_c6 : dchar 6 = '6' := by decide

theorem dchar_c7 : dchar 7 = '7' := by decide

theorem dchar_c8 : dchar 8 = '8' := by decide

theorem dchar_c9 : dchar 9 = '9' := by decide

theorem altM_pad2 {α : Type} (k : ℕ → List Char → Option α) {m : ℕ}
    (h1 : 1 ≤ m) (h2 : m ≤ 12) (rest : List Char)
    (hk : ∀ d c r, isDigitC c = true → k d (c :: r) = none) :
    altM (pad2 m ++ rest) k = k m rest := by
  interval_cases m <;>
    simp [altM, pad2, firstSome, dval, dchar_c0, dchar_c1, dchar_c2, dchar_c3, dchar_c4,
      dchar_c5, dchar_c6, dchar_c7, dchar_c8, dchar_c9] <;>
    split <;>
    rename_i hx <;>
    first
      | exact hx.symm
      | exact (hk _ _ _ (by decide)).trans hx.symm

theorem altD_pad2 {α : Type} (k : ℕ → List Char → Option α) {d : ℕ}
    (h1 : 1 ≤ d) (h2 : d ≤ 31) (rest : List Char)
    (hk : ∀ d' c r, isDigitC c = true → k d' (c :: r) = none) :
    altD (pad2 d ++ rest) k = k d rest := by
  interval_cases d <;>
    simp [altD, pad2, firstSome, dval, dchar_c0, dchar_c1, dchar_c2, dchar_c3, dchar_c4,
      dchar_c5, dchar_c6, dchar_c7, dchar_c8, dchar_c9] <;>
    split <;>
    rename_i hx <;>
    first
      | exact hx.symm
      | exact (hk _ _ _ (by decide)).trans hx.symm

theorem pY4_pad4 {α : Type} (k : ℕ → List Char → Option α) {y : ℕ} (hy : y ≤ 9999)
    (rest : List Char) : pY4 (pad4 y ++ rest) k = k y rest := by
  have d1 : y / 1000 % 10 < 10 := Nat.mod_lt _ (by norm_num)
  have d2 : y / 100 % 10 < 10 := Nat.mod_lt _ (by norm_num)
  have d3 : y / 10 % 10 < 10 := Nat.mod_lt _ (by norm_num)
  have d4 : y % 10 < 10 := Nat.mod_lt _ (by norm_num)
  simp only [pad4, List.cons_append, List.nil_append, pY4]
  rw [if_pos ⟨isDigitC_dchar d1, isDigitC_dchar d2, isDigitC_dchar d3, isDigitC_dchar d4⟩]
  rw [dval_dchar d1, dval_dchar d2, dval_dchar d3, dval_dchar d4]
  have : ((y / 1000 % 10 * 10 + y / 100 % 10) * 10 + y / 10 % 10) * 10 + y % 10 = y := by
    omega
  rw [this]

theorem litC_cons {α : Type} (x : Char) (cs : List Char) (k : List Char → Option α) :
    litC x (x :: cs) k = k cs := by
  simp [litC]

theorem litC_digit_none {α : Type} {x c : Char} (cs : List Char) (k : List Char → Option α)
    (hc : isDigitC c = true) (hx : isDigitC x = false) : litC x (c :: cs) k = none := by
  simp only [litC]
  rw [if_neg (digit_ne hc hx)]

theorem finishDate_cons (y m d : Nat) (c : Char) (r : List Char) :
    finishDate y m d (c :: r) = none := by
  simp [finishDate]

theorem dateOK_bounds {y m d : ℕ} (h : dateOK ⟨y, m, d⟩ = true) :
    1 ≤ y ∧ y ≤ 9999 ∧ 1 ≤ m ∧ m ≤ 12 ∧ 1 ≤ d ∧ d ≤ 31 := by
  have hdm : daysInMonth y m ≤ 31 := by
    unfold daysInMonth
    split_ifs <;> norm_num
  simp only [dateOK, Bool.and_eq_true, decide_eq_true_eq] at h
  refine ⟨h.1.1.1.1.1, h.1.1.1.1.2, h.1.1.1.2, h.1.1.2, h.1.2, le_trans h.2 hdm⟩

theorem strptimeYMD_fmt {t : PyDate} (h : dateOK t = true) :
    strptimeYMD (strftimeYMDL t) = some t := by
  obtain ⟨y, m, d⟩ := t
  obtain ⟨hy1, hy2, hm1, hm2, hd1, hd2⟩ := dateOK_bounds h
  unfold strftimeYMDL strptimeYMD
  rw [pY4_pad4 _ hy2, litC_cons]
  rw [altM_pad2 _ hm1 hm2 _
    (fun m' c r hc => litC_digit_none r _ hc (by decide))]
  rw [litC_cons, ← List.append_nil (pad2 d)]
  rw [altD_pad2 _ hd1 hd2 _
    (fun d' c r hc => finishDate_cons y m d' c r)]
  exact if_pos ⟨rfl, h⟩

theorem strftimeYMDL_no_ws (t : PyDate) :
    ∀ c ∈ strftimeYMDL t, isPySpace c = false := by
  intro c hc
  unfold strftimeYMDL pad4 at hc
  simp only [List.cons_append, List.nil_append, List.mem_cons] at hc
  rcases hc with h | h | h | h | h | hc
  · rw [h]; exact not_pySpace_dchar (Nat.mod_lt _ (by norm_num))
  · rw [h]; exact not_pySpace_dchar (Nat.mod_lt _ (by norm_num))
  · rw [h]; exact not_pySpace_dchar (Nat.mod_lt _ (by norm_num))
  · rw [h]; exact not_pySpace_dchar (Nat.mod_lt _ (by norm_num))
  · rw [h]; decide
  · rcases List.mem_append.mp hc with h | h
    · obtain ⟨k, hk, rfl⟩ := pad2_chars h
      exact not_pySpace_dchar hk
    · rcases List.mem_cons.mp h with h | h
      · rw [h]; decide
      · obtain ⟨k, hk, rfl⟩ := pad2_chars h
        exact not_pySpace_dchar hk

theorem strftimeYMDL_ne_nil (t : PyDate) : strftimeYMDL t ≠ [] := by
  simp [strftimeYMDL, pad4]

theorem _parse_date_fmt {t : PyDate} (h : dateOK t = true) :
    _parse_date (strftimeYMD t) = some (strftimeYMD t) := by
  have h1 : _parse_date (strftimeYMD t)
      = (if pystrip (strftimeYMDL t) = [] then none
         else
           match strptimeYMD (pystrip (strftimeYMDL t)) with
           | some t' => some (strftimeYMD t')
           | none =>
             match strptimeDMY (pystrip (strftimeYMDL t)) with
             | some t' => some (strftimeYMD t')
             | none =>
               match strptimeMDY (pystrip (strftimeYMDL t)) with
               | some t' => some (strftimeYMD t')
               | none =>
                 match pyFromISO (removeAll 'Z' (pystrip (strftimeYMDL t))) with
                 | some t' => some (strftimeYMD t')
                 | none => none) := rfl
  rw [h1, pystrip_eq_self_of_no_ws (strftimeYMDL_no_ws t)]
  rw [if_neg (strftimeYMDL_ne_nil t), strptimeYMD_fmt h]

/-! ## Row processing over the canonical header -/

theorem field_map_std :
    field_map_get STANDARD_COLUMNS "date" = "date" ∧
    field_map_get STANDARD_COLUMNS "amount" = "amount" ∧
    field_map_get STANDARD_COLUMNS "category" = "category" ∧
    field_map_get STANDARD_COLUMNS "description" = "description" := by
  refine ⟨by decide, by decide, by decide, by decide⟩

theorem row_get_std (a b c d : String) :
    row_get STANDARD_COLUMNS [a, b, c, d] "date" = a ∧
    row_get STANDARD_COLUMNS [a, b, c, d] "amount" = b ∧
    row_get STANDARD_COLUMNS [a, b, c, d] "category" = c ∧
    row_get STANDARD_COLUMNS [a, b, c, d] "description" = d := by
  have h1 : lastIdx STANDARD_COLUMNS "date" = some 0 := by decide
  have h2 : lastIdx STANDARD_COLUMNS "amount" = some 1 := by decide
  have h3 : lastIdx STANDARD_COLUMNS "category" = some 2 := by decide
  have h4 : lastIdx STANDARD_COLUMNS "description" = some 3 := by decide
  refine ⟨?_, ?_, ?_, ?_⟩
  · unfold row_get; rw [h1]; rfl
  · unfold row_get; rw [h2]; rfl
  · unfold row_get; rw [h3]; rfl
  · unfold row_get; rw [h4]; rfl

theorem processRow_std (a b c d : String) :
    processRow STANDARD_COLUMNS [a, b, c, d] =
      if _parse_date a = none ∨ _parse_date a = some "" ∨ _parse_amount b = none
         ∨ pystripS c = "" ∨ pystripS d = ""
      then none
      else some ⟨(_parse_date a).getD "", (_parse_amount b).getD (PyFloat.finite 0),
        pystripS c, pystripS d⟩ := by
  unfold processRow
  rw [field_map_std.1, field_map_std.2.1, field_map_std.2.2.1, field_map_std.2.2.2]
  rw [(row_get_std a b c d).1, (row_get_std a b c d).2.1,
    (row_get_std a b c d).2.2.1, (row_get_std a b c d).2.2.2]

/-! ## Claim C1: round-trip stability of save then load -/

/-- C1: for every valid expense — canonical date, strictly positive
amount in whole cents, non-empty trimmed category and description —
loading the file produced by saving the singleton list yields that
singleton back. -/
theorem load_save_roundtrip (e : Expense) (h : isValidExpense e) :
    load_expenses (some (save_expenses [e])) = [e] := by
  obtain ⟨edate, eamt, ecat, edesc⟩ := e
  obtain ⟨⟨t, ht, hdate⟩, ⟨n, hn, hamt⟩, hc1, hc2, hd1, hd2⟩ := h
  simp only at hdate hamt hc1 hc2 hd1 hd2
  subst hdate hamt
  have h1 : load_expenses (some (save_expenses
      [⟨strftimeYMD t, PyFloat.finite ((n : ℚ) / 100), ecat, edesc⟩]))
      = load_rows (STANDARD_COLUMNS ::
          [[strftimeYMD t, fmtF2 (PyFloat.finite ((n : ℚ) / 100)), ecat, edesc]]) := rfl
  rw [h1]
  simp only [load_rows]
  rw [if_neg (by decide : ¬ (STANDARD_COLUMNS = ([] : List String)))]
  have hrow : ¬ ([strftimeYMD t, fmtF2 (PyFloat.finite ((n : ℚ) / 100)), ecat, edesc]
      = ([] : List String)) := by simp
  simp only [List.filterMap_cons, List.filterMap_nil]
  rw [if_neg hrow, processRow_std]
  rw [_parse_date_fmt ht, _parse_amount_fmtF2 hn, hc1, hd1]
  have hdate_ne : ¬ (strftimeYMD t = "") := by
    intro hEq
    have : strftimeYMDL t = ("" : String).data := congrArg String.data hEq
    exact strftimeYMDL_ne_nil t this
  have hne : ¬ ((some (strftimeYMD t) : Option String) = none
      ∨ (some (strftimeYMD t) : Option String) = some ""
      ∨ (some (PyFloat.finite ((n : ℚ) / 100)) : Option PyFloat) = none
      ∨ ecat = "" ∨ edesc = "") := by
    simp [hdate_ne, hc2, hd2]
  rw [if_neg hne]
  rfl

/-- Witness for C1: a concrete valid expense round-trips. -/
theorem load_save_roundtrip_witness :
    isValidExpense ⟨"2024-04-03", PyFloat.finite (mkRat 1234 100), "food", "lunch"⟩ ∧
    load_expenses (some (save_expenses
      [⟨"2024-04-03", PyFloat.finite (mkRat 1234 100), "food", "lunch"⟩]))
      = [⟨"2024-04-03", PyFloat.finite (mkRat 1234 100), "food", "lunch"⟩] := by
  have hv : isValidExpense
      ⟨"2024-04-03", PyFloat.finite (mkRat 1234 100), "food", "lunch"⟩ := by
    refine ⟨⟨⟨2024, 4, 3⟩, by decide, by decide⟩, ⟨1234, by norm_num, ?_⟩, by decide,
      by decide, by decide, by decide⟩
    show PyFloat.finite (mkRat 1234 100) = PyFloat.finite ((1234 : ℚ) / 100)
    rw [Rat.mkRat_eq_div]
    norm_num
  exact ⟨hv, load_save_roundtrip _ hv⟩

/-! ## Inversion of the date parsers -/

theorem firstSome_some {α : Type} {a b : Option α} {x : α} (h : firstSome a b = some x) :
    a = some x ∨ b = some x := by
  unfold firstSome at h
  cases a with
  | some y => exact Or.inl h
  | none => exact Or.inr h

theorem altM_some {α : Type} {cs : List Char} {k : ℕ → List Char → Option α} {x : α}
    (h : altM cs k = some x) : ∃ m r, k m r = some x := by
  unfold altM at h
  rcases firstSome_some h with h | h
  · split at h
    · split_ifs at h
      exact ⟨_, _, h⟩
    · exact absurd h (by simp)
  · rcases firstSome_some h with h | h
    · split at h
      · split_ifs at h
        exact ⟨_, _, h⟩
      · exact absurd h (by simp)
    · split at h
      · split_ifs at h
        exact ⟨_, _, h⟩
      · exact absurd h (by simp)

theorem altD_some_rest {α : Type} {cs : List Char} {k : ℕ → List Char → Option α} {x : α}
    (h : altD cs k = some x) :
    (∃ d c1 c2 r, cs = c1 :: c2 :: r ∧ k d r = some x) ∨
    (∃ d c1 r, cs = c1 :: r ∧ k d r = some x) := by
  unfold altD at h
  rcases firstSome_some h with h | h
  · split at h
    · split_ifs at h
      exact Or.inl ⟨_, _, _, _, rfl, h⟩
    · exact absurd h (by simp)
  · rcases firstSome_some h with h | h
    · split at h
      · split_ifs at h
        exact Or.inl ⟨_, _, _, _, rfl, h⟩
      · exact absurd h (by simp)
    · rcases firstSome_some h with h | h
      · split at h
        · split_ifs at h
          exact Or.inl ⟨_, _, _, _, rfl, h⟩
        · exact absurd h (by simp)
      · split at h
        · split_ifs at h
          exact Or.inr ⟨_, _, _, rfl, h⟩
        · exact absurd h (by simp)

theorem altD_some {α : Type} {cs : List Char} {k : ℕ → List Char → Option α} {x : α}
    (h : altD cs k = some x) : ∃ d r, k d r = some x := by
  rcases altD_some_rest h with ⟨d, _, _, r, _, hk⟩ | ⟨d, _, r, _, hk⟩
  · exact ⟨d, r, hk⟩
  · exact ⟨d, r, hk⟩

theorem pY4_some {α : Type} {cs : List Char} {k : ℕ → List Char → Option α} {x : α}
    (h : pY4 cs k = some x) : ∃ y r, k y r = some x := by
  unfold pY4 at h
  split at h
  · split_ifs at h
    exact ⟨_, _, h⟩
  · exact absurd h (by simp)

theorem litC_some {α : Type} {ch : Char} {cs : List Char} {k : List Char → Option α}
    {x : α} (h : litC ch cs k = some x) : ∃ r, cs = ch :: r ∧ k r = some x := by
  unfold litC at h
  split at h
  · rename_i c rest
    split_ifs at h with hc
    exact ⟨rest, by rw [hc], h⟩
  · exact absurd h (by simp)

theorem finishDate_some {y m d : ℕ} {rest : List Char} {t : PyDate}
    (h : finishDate y m d rest = some t) :
    rest = [] ∧ dateOK t = true ∧ t = ⟨y, m, d⟩ := by
  unfold finishDate at h
  split_ifs at h with hc
  cases h
  exact ⟨hc.1, hc.2, rfl⟩

theorem strptimeYMD_dateOK {cs : List Char} {t : PyDate}
    (h : strptimeYMD cs = some t) : dateOK t = true := by
  unfold strptimeYMD at h
  obtain ⟨y, r1, h⟩ := pY4_some h
  obtain ⟨r2, _, h⟩ := litC_some h
  obtain ⟨m, r3, h⟩ := altM_some h
  obtain ⟨r4, _, h⟩ := litC_some h
  obtain ⟨d, r5, h⟩ := altD_some h
  exact (finishDate_some h).2.1

theorem strptimeDMY_dateOK {cs : List Char} {t : PyDate}
    (h : strptimeDMY cs = some t) : dateOK t = true := by
  unfold strptimeDMY at h
  obtain ⟨d, r1, h⟩ := altD_some h
  obtain ⟨r2, _, h⟩ := litC_some h
  obtain ⟨m, r3, h⟩ := altM_some h
  obtain ⟨r4, _, h⟩ := litC_some h
  obtain ⟨y, r5, h⟩ := pY4_some h
  exact (finishDate_some h).2.1

theorem strptimeMDY_dateOK {cs : List Char} {t : PyDate}
    (h : strptimeMDY cs = some t) : dateOK t = true := by
  unfold strptimeMDY at h
  obtain ⟨m, r1, h⟩ := altM_some h
  obtain ⟨r2, _, h⟩ := litC_some h
  obtain ⟨d, r3, h⟩ := altD_some h
  obtain ⟨r4, _, h⟩ := litC_some h
  obtain ⟨y, r5, h⟩ := pY4_some h
  exact (finishDate_some h).2.1

theorem pyFromISO_dateOK {cs : List Char} {t : PyDate}
    (h : pyFromISO cs = some t) : dateOK t = true := by
  unfold pyFromISO at h
  split at h
  · split_ifs at h
    exact (finishDate_some h).2.1
  · exact absurd h (by simp)

/-- Every successful result of `_parse_date` is the canonical rendering
of a constructible calendar date. -/
theorem _parse_date_canonical {s r : String} (h : _parse_date s = some r) :
    ∃ t : PyDate, dateOK t = true ∧ r = strftimeYMD t := by
  simp only [_parse_date] at h
  split_ifs at h
  split at h
  · rename_i t ht
    exact ⟨t, strptimeYMD_dateOK ht, (Option.some_injective _ h).symm⟩
  · split at h
    · rename_i t ht
      exact ⟨t, strptimeDMY_dateOK ht, (Option.some_injective _ h).symm⟩
    · split at h
      · rename_i t ht
        exact ⟨t, strptimeMDY_dateOK ht, (Option.some_injective _ h).symm⟩
      · split at h
        · rename_i t ht
          exact ⟨t, pyFromISO_dateOK ht, (Option.some_injective _ h).symm⟩
        · exact absurd h (by simp)

/-! ## Sign of parsed amounts -/

theorem roundHE_nonneg {q : ℚ} (h : 0 ≤ q) : 0 ≤ roundHE q := by
  have h1 : 0 ≤ q.num := Rat.num_nonneg.mpr h
  have h3 : 0 ≤ q.num.fdiv q.den := Int.fdiv_nonneg h1 (by positivity)
  simp only [roundHE]
  split_ifs <;> omega

/-- An amount returned by `_parse_amount` is never negative: the code
rejects every value for which `amt <= 0` is true, and what passes —
positive finite values (possibly rounding down to `0.00`), `+inf`, and
`nan` — compares negative to nothing. -/
theorem _parse_amount_notNeg {s : String} {x : PyFloat}
    (h : _parse_amount s = some x) : amountNotNeg x := by
  have h' : amtCore (removeAll ',' (removeAll '$' (pystrip s.data))) = some x := h
  unfold amtCore at h'
  split_ifs at h'
  split at h'
  · exact absurd h' (by simp)
  · rename_i amt hamt
    split_ifs at h' with hle
    cases h'
    cases amt with
    | finite q =>
      show 0 ≤ pyRound2 q
      have hq : 0 < q := by
        simp only [pyLe0, decide_eq_true_eq] at hle
        exact lt_of_not_le hle
      unfold pyRound2
      rw [Rat.mkRat_eq_div]
      have h0 : (0 : ℚ) ≤ qTimes100 q := by
        rw [qTimes100_eq]
        positivity
      have hr := roundHE_nonneg h0
      have : (0 : ℚ) ≤ (roundHE (qTimes100 q) : ℚ) := by exact_mod_cast hr
      positivity
    | inf neg =>
      show neg = false
      simpa [pyLe0] using hle
    | nan =>
      show True
      trivial

/-! ## Claim C2: the validation invariant of loaded expenses -/

/-- Counterexample to C2 as stated: the row amount `"0.001"` passes the
pre-rounding positivity check but rounds to `0.00`, so a loaded expense
can carry amount `0`, not strictly greater than `0`. -/
theorem load_amount_zero_cex :
    ¬ (∀ e ∈ load_expenses (some [["date", "amount", "category", "description"],
        ["2024-01-02", "0.001", "a", "b"]]),
      ∃ q : ℚ, e.amount = PyFloat.finite q ∧ 0 < q) := by
  intro hall
  have heq : load_expenses (some [["date", "amount", "category", "description"],
      ["2024-01-02", "0.001", "a", "b"]])
      = [⟨"2024-01-02", PyFloat.finite 0, "a", "b"⟩] := by decide
  have hm : (⟨"2024-01-02", PyFloat.finite 0, "a", "b"⟩ : Expense)
      ∈ load_expenses (some [["date", "amount", "category", "description"],
          ["2024-01-02", "0.001", "a", "b"]]) := by
    rw [heq]
    exact List.mem_singleton.mpr rfl
  obtain ⟨q, hq, hpos⟩ := hall _ hm
  have hq' : PyFloat.finite 0 = PyFloat.finite q := hq
  injection hq' with hq0
  rw [← hq0] at hpos
  exact absurd hpos (by norm_num)

/-- C2 (amended): every expense returned by `load` on any input has all
four fields; its date is the canonical rendering of a parsed calendar
date, its amount is never negative — nonnegative when finite (a
sub-cent amount rounds to `0.00`), positive infinity when infinite, and
`nan` carries no sign — and category and description are non-empty. -/
theorem load_invariant (st : Option (List (List String))) (e : Expense)
    (he : e ∈ load_expenses st) :
    (∃ t : PyDate, dateOK t = true ∧ e.date = strftimeYMD t) ∧
    amountNotNeg e.amount ∧ e.category ≠ "" ∧ e.description ≠ "" := by
  unfold load_expenses at he
  cases hfile : ensure_csv_header st with
  | nil => rw [hfile] at he; simp [load_rows] at he
  | cons hdr rows =>
    rw [hfile] at he
    simp only [load_rows] at he
    split_ifs at he with hh
    · simp at he
    · rw [List.mem_filterMap] at he
      obtain ⟨r, _, hr⟩ := he
      split_ifs at hr with hrnil
      simp only [processRow] at hr
      split_ifs at hr with hcond
      push_neg at hcond
      obtain ⟨hc1, hc2, hc3, hc4, hc5⟩ := hcond
      obtain ⟨dv, hdv⟩ := Option.ne_none_iff_exists'.mp hc1
      obtain ⟨av, hav⟩ := Option.ne_none_iff_exists'.mp hc3
      cases hr
      refine ⟨?_, ?_, hc4, hc5⟩
      · obtain ⟨t, ht, hcanon⟩ := _parse_date_canonical hdv
        refine ⟨t, ht, ?_⟩
        rw [hdv]
        simpa using hcanon
      · have hnn := _parse_amount_notNeg hav
        rw [hav]
        simpa using hnn

/-- Witness for the amended C2, on a concrete one-row file. -/
theorem load_invariant_witness :
    (⟨"2024-01-02", PyFloat.finite 5, "food", "x"⟩ : Expense)
      ∈ load_expenses (some [["date", "amount", "category", "description"],
          ["2024-01-02", "5", "food", "x"]]) ∧
    ((∃ t : PyDate, dateOK t = true ∧
        (⟨"2024-01-02", PyFloat.finite 5, "food", "x"⟩ : Expense).date = strftimeYMD t) ∧
      amountNotNeg (⟨"2024-01-02", PyFloat.finite 5, "food", "x"⟩ : Expense).amount ∧
      (⟨"2024-01-02", PyFloat.finite 5, "food", "x"⟩ : Expense).category ≠ "" ∧
      (⟨"2024-01-02", PyFloat.finite 5, "food", "x"⟩ : Expense).description ≠ "") := by
  have hm : (⟨"2024-01-02", PyFloat.finite 5, "food", "x"⟩ : Expense)
      ∈ load_expenses (some [["date", "amount", "category", "description"],
          ["2024-01-02", "5", "food", "x"]]) := by decide
  exact ⟨hm, load_invariant _ _ hm⟩

/-! ## Claim C3: the parsers are total and deterministic

In the embedding both parsers are total Lean functions into `Option`
(each fallible primitive of the source — `strptime`, `fromisoformat`,
`float` — is itself modelled as an `Option`-returning function, so
`none` is the sole failure channel and no exception escapes). -/

/-- C3: the date parser and the amount parser are total and
deterministic: every input string (empty, whitespace, arbitrary text)
yields a result — a value or the no-value signal `none` — and equal
inputs yield equal outputs. -/
theorem parsers_total_deterministic (s : String) :
    (∃ r : Option String, _parse_date s = r) ∧
    (∃ q : Option PyFloat, _parse_amount s = q) ∧
    (∀ s' : String, s = s' →
      _parse_date s = _parse_date s' ∧ _parse_amount s = _parse_amount s') :=
  ⟨⟨_, rfl⟩, ⟨_, rfl⟩, fun _ h => by rw [h]; exact ⟨rfl, rfl⟩⟩

/-- Witness for C3, at the concrete input `"03/04/2024"`. -/
theorem parsers_total_deterministic_witness :
    _parse_date "03/04/2024" = _parse_date "03/04/2024" ∧
    _parse_amount "03/04/2024" = _parse_amount "03/04/2024" :=
  (parsers_total_deterministic "03/04/2024").2.2 "03/04/2024" rfl

/-! ## Claim C4: the amount parser's case analysis -/

/-- C4: after stripping whitespace and deleting `'$'`/`','`, empty or
non-numeric text gives no value, a parse result at most `0` gives no
value, and a strictly positive parse result is returned rounded to two
decimal places; in particular `"$1,234.5"` yields `1234.50` and `"-5"`
and `"0"` yield no value. -/
theorem amount_parser_cases (s : String) :
    (removeAll ',' (removeAll '$' (pystrip s.data)) = [] → _parse_amount s = none) ∧
    (pyFloat (removeAll ',' (removeAll '$' (pystrip s.data))) = none →
      _parse_amount s = none) ∧
    (∀ q : ℚ, pyFloat (removeAll ',' (removeAll '$' (pystrip s.data)))
        = some (PyFloat.finite q) →
      q ≤ 0 → _parse_amount s = none) ∧
    (∀ q : ℚ, pyFloat (removeAll ',' (removeAll '$' (pystrip s.data)))
        = some (PyFloat.finite q) →
      0 < q → _parse_amount s = some (PyFloat.finite (pyRound2 q))) ∧
    _parse_amount "$1,234.5" = some (PyFloat.finite (mkRat 123450 100)) ∧
    _parse_amount "-5" = none ∧ _parse_amount "0" = none := by
  have hA : _parse_amount s
      = amtCore (removeAll ',' (removeAll '$' (pystrip s.data))) := rfl
  refine ⟨?_, ?_, ?_, ?_, by decide, by decide, by decide⟩
  · intro hv
    rw [hA]
    unfold amtCore
    rw [if_pos hv]
  · intro hf
    rw [hA]
    unfold amtCore
    by_cases hv : removeAll ',' (removeAll '$' (pystrip s.data)) = []
    · rw [if_pos hv]
    · rw [if_neg hv, hf]
  · intro q hf hle
    rw [hA]
    unfold amtCore
    by_cases hv : removeAll ',' (removeAll '$' (pystrip s.data)) = []
    · rw [if_pos hv]
    · rw [if_neg hv, hf]
      show (if pyLe0 (PyFloat.finite q) then none
          else some (pyRound2F (PyFloat.finite q))) = none
      simp [pyLe0, hle]
  · intro q hf hpos
    rw [hA]
    unfold amtCore
    have hv : removeAll ',' (removeAll '$' (pystrip s.data)) ≠ [] := by
      intro hnil
      rw [hnil, pyFloat_nil] at hf
      exact absurd hf (by simp)
    rw [if_neg hv, hf]
    show (if pyLe0 (PyFloat.finite q) then none
        else some (pyRound2F (PyFloat.finite q)))
      = some (PyFloat.finite (pyRound2 q))
    simp [pyLe0, not_le.mpr hpos, pyRound2F]

/-- Witness for C4, at the concrete input `"-5"`. -/
theorem amount_parser_cases_witness :
    pyFloat (removeAll ',' (removeAll '$' (pystrip ("-5" : String).data)))
      = some (PyFloat.finite (-5)) ∧
    _parse_amount "-5" = none :=
  ⟨by decide, (amount_parser_cases "-5").2.2.1 (-5) (by decide) (by norm_num)⟩

/-! ## Claim C5: format order and day/month precedence -/

theorem strptimeDMY_slash {cs : List Char} {t : PyDate} (h : strptimeDMY cs = some t) :
    cs.get? 1 = some '/' ∨ cs.get? 2 = some '/' := by
  unfold strptimeDMY at h
  rcases altD_some_rest h with ⟨d, c1, c2, r, rfl, hk⟩ | ⟨d, c1, r, rfl, hk⟩
  · obtain ⟨r2, hr2, _⟩ := litC_some hk
    subst hr2
    exact Or.inr rfl
  · obtain ⟨r2, hr2, _⟩ := litC_some hk
    subst hr2
    exact Or.inl rfl

theorem slash_not_YMD {cs : List Char}
    (h : cs.get? 1 = some '/' ∨ cs.get? 2 = some '/') : strptimeYMD cs = none := by
  unfold strptimeYMD
  have hslash : isDigitC '/' = false := by decide
  cases cs with
  | nil => rfl
  | cons c1 t1 =>
    cases t1 with
    | nil => rfl
    | cons c2 t2 =>
      cases t2 with
      | nil => rfl
      | cons c3 t3 =>
        cases t3 with
        | nil => rfl
        | cons c4 t4 =>
          rcases h with h | h
          · have hc2 : c2 = '/' := by simpa using h
            subst hc2
            simp [pY4, hslash]
          · have hc3 : c3 = '/' := by simpa using h
            subst hc3
            simp [pY4, hslash]

/-- C5: the date parser tries `%Y-%m-%d`, `%d/%m/%Y`, `%m/%d/%Y` in that
order and the first success wins, so whenever the `DD/MM/YYYY` reading
succeeds it is the result (slash dates cannot match the dash format);
in particular `"03/04/2024"` parses as 3 April, and every output is
re-emitted in canonical zero-padded `YYYY-MM-DD` form. -/
theorem date_format_order :
    (∀ (s : String) (t : PyDate), strptimeDMY (pystrip s.data) = some t →
        _parse_date s = some (strftimeYMD t)) ∧
    _parse_date "03/04/2024" = some "2024-04-03" ∧
    (∀ s r : String, _parse_date s = some r →
        ∃ t : PyDate, dateOK t = true ∧ r = strftimeYMD t) := by
  refine ⟨?_, by decide, fun s r h => _parse_date_canonical h⟩
  intro s t h
  have hnil : pystrip s.data ≠ [] := by
    intro hEq
    rw [hEq] at h
    rw [show strptimeDMY ([] : List Char) = none from rfl] at h
    exact absurd h (by simp)
  have hymd := slash_not_YMD (strptimeDMY_slash h)
  simp only [_parse_date]
  rw [if_neg hnil]
  simp only [hymd, h]

/-- Witness for C5: the ambiguous slash date `"03/04/2024"` matches the
`DD/MM/YYYY` reading and that reading wins. -/
theorem date_format_order_witness :
    _parse_date "03/04/2024" = some (strftimeYMD ⟨2024, 4, 3⟩) :=
  date_format_order.1 "03/04/2024" ⟨2024, 4, 3⟩ (by decide)

/-! ## Claim C6: header synonyms load identically -/

/-- C6: a file with header `Txn Date,Debit,Type,Merchant` loads to
exactly the same expense list as one with the canonical header
`date,amount,category,description` over the same data rows. -/
theorem header_synonyms_load (rows : List (List String)) :
    load_expenses (some (bankHeader :: rows)) =
      load_expenses (some (STANDARD_COLUMNS :: rows)) := by
  have hg : ∀ (r : List String) (k1 k2 : String),
      lastIdx bankHeader k1 = lastIdx STANDARD_COLUMNS k2 →
      row_get bankHeader r k1 = row_get STANDARD_COLUMNS r k2 := by
    intro r k1 k2 hidx
    unfold row_get
    rw [hidx]
  have hrow : ∀ r : List String,
      processRow bankHeader r = processRow STANDARD_COLUMNS r := by
    intro r
    simp only [processRow]
    rw [show field_map_get bankHeader "date" = "Txn Date" from by decide,
        show field_map_get bankHeader "amount" = "Debit" from by decide,
        show field_map_get bankHeader "category" = "Type" from by decide,
        show field_map_get bankHeader "description" = "Merchant" from by decide,
        field_map_std.1, field_map_std.2.1, field_map_std.2.2.1, field_map_std.2.2.2,
        hg r "Txn Date" "date" (by decide), hg r "Debit" "amount" (by decide),
        hg r "Type" "category" (by decide), hg r "Merchant" "description" (by decide)]
  have hfun : (fun r : List String => if r = [] then none else processRow bankHeader r)
      = (fun r => if r = [] then none else processRow STANDARD_COLUMNS r) := by
    funext r
    rw [hrow r]
  show load_rows (bankHeader :: rows) = load_rows (STANDARD_COLUMNS :: rows)
  simp only [load_rows]
  rw [if_neg (by decide : ¬ (bankHeader = ([] : List String))),
      if_neg (by decide : ¬ (STANDARD_COLUMNS = ([] : List String))), hfun]

/-! ## Claim C7: duplicate canonical targets are last-write-wins -/

theorem find?_append_of_none {p : String → Bool} {l₁ : List String} (l₂ : List String)
    (h : ∀ x ∈ l₁, p x = false) : (l₁ ++ l₂).find? p = l₂.find? p := by
  induction l₁ with
  | nil => rfl
  | cons a l ih =>
    rw [List.cons_append,
      List.find?_cons_of_neg _ (by simp [h a (List.mem_cons_self a l)]),
      ih (fun x hx => h x (List.mem_cons_of_mem a hx))]

theorem findIdx?_append_of_none {p : String → Bool} {l₁ : List String} (l₂ : List String)
    (h : ∀ x ∈ l₁, p x = false) (i : ℕ) :
    (l₁ ++ l₂).findIdx? p i = l₂.findIdx? p (i + l₁.length) := by
  induction l₁ generalizing i with
  | nil => simp
  | cons a l ih =>
    rw [List.cons_append, List.findIdx?_cons,
      if_neg (by simp [h a (List.mem_cons_self a l)]),
      ih (fun x hx => h x (List.mem_cons_of_mem a hx)) (i + 1)]
    congr 1
    simp only [List.length_cons]
    omega

/-- The reversed header of a last-write-wins instance: the shadowing
column `a` comes first, then the reversed prefix. -/
theorem reverse_shadow (pre suf : List String) (a : String) :
    (pre ++ a :: suf).reverse = suf.reverse ++ a :: pre.reverse := by
  rw [List.reverse_append, List.reverse_cons, List.append_assoc, List.singleton_append]

/-- C7: in every header row in which column `a` standardizes to the
canonical name `k` and no later column standardizes to `k` — in
particular whenever two columns target `k` and `a` is the later one —
the field map backs `k` by `a` no matter which columns precede or
follow it, and the validator's raw value for `k` is read from `a`'s
own position, so the earlier column's values are ignored; a concrete
load whose `amt` and `debit` headers both normalize to `amount` shows
the amount coming from the later (`debit`) column. -/
theorem field_map_last_write_wins (pre suf : List String) (a k : String)
    (h : _standardize_col_name a = k)
    (hsuf : ∀ h' ∈ suf, _standardize_col_name h' ≠ k) :
    field_map_get (pre ++ a :: suf) k = a ∧
    (∀ row : List String,
      row_get (pre ++ a :: suf) row (field_map_get (pre ++ a :: suf) k)
        = match row.get? pre.length with
          | some v => v
          | none => "None") ∧
    load_expenses (some [["date", "amt", "debit", "category", "description"],
        ["2024-01-02", "111", "2.5", "food", "x"]]) =
      [⟨"2024-01-02", PyFloat.finite (mkRat 5 2), "food", "x"⟩] := by
  have hna : a ∉ suf := fun hmem => (hsuf a hmem) h
  have hfm : field_map_get (pre ++ a :: suf) k = a := by
    unfold field_map_get
    rw [reverse_shadow,
      find?_append_of_none _ (fun x hx => by
        simp [hsuf x (List.mem_reverse.mp hx)]),
      List.find?_cons_of_pos _ (by simp [h])]
  refine ⟨hfm, ?_, by decide⟩
  intro row
  rw [hfm]
  have hidx : lastIdx (pre ++ a :: suf) a = some pre.length := by
    unfold lastIdx
    rw [reverse_shadow,
      findIdx?_append_of_none _ (fun x hx => by
        simp only [decide_eq_false_iff_not]
        intro hEq
        exact hna (hEq ▸ List.mem_reverse.mp hx)) 0,
      List.findIdx?_cons, if_pos (by simp)]
    simp only [List.length_append, List.length_cons, List.length_reverse, Nat.zero_add]
    congr 1
    omega
  unfold row_get
  rw [hidx]

/-- Witness for C7: with header `date, amt, debit, category,
description`, both `amt` and `debit` standardize to `amount`, nothing
after `debit` does, and the field map backs `amount` by the later
(`debit`) column. -/
theorem field_map_last_write_wins_witness :
    _standardize_col_name "debit" = "amount" ∧
    field_map_get (["date", "amt"] ++ "debit" :: ["category", "description"]) "amount"
      = "debit" :=
  ⟨by decide,
    (field_map_last_write_wins ["date", "amt"] ["category", "description"]
      "debit" "amount" (by decide) (by decide)).1⟩

/-! ## Claim C8: unrecognized headers -/

/-- Counterexample to C8 as stated: the header `"Foo"` is not in the
synonym table, yet the normalizer does not return it unchanged — it
returns the lower-cased form `"foo"`. -/
theorem standardize_not_identity_on_raw :
    colSynonyms.find? (fun p => p.1 = "Foo") = none ∧
    _standardize_col_name "Foo" ≠ "Foo" :=
  ⟨by decide, by decide⟩

/-- C8 (amended): for every header string whose trimmed lower-cased form
is not a key of the synonym table, the normalizer returns that trimmed
lower-cased form unchanged. -/
theorem standardize_passthrough_normalized (col : String)
    (h : colSynonyms.find? (fun p => p.1 = pylower (pystripS col)) = none) :
    _standardize_col_name col = pylower (pystripS col) := by
  unfold _standardize_col_name
  simp only [h]

/-- Witness for the amended C8, at the concrete header `"Foo"`. -/
theorem standardize_passthrough_normalized_witness :
    colSynonyms.find? (fun p => p.1 = pylower (pystripS "Foo")) = none ∧
    _standardize_col_name "Foo" = pylower (pystripS "Foo") :=
  ⟨by decide, standardize_passthrough_normalized "Foo" (by decide)⟩

/-! ## Claim C9: header creation on load -/

/-- C9: loading a nonexistent (or zero-byte) file creates it with just
the canonical header row and returns the empty list; a second load on
the resulting file returns empty again and leaves the contents
unchanged, and a file with any existing content is never touched by the
ensure-header step. -/
theorem load_initializes_header :
    load_expenses none = [] ∧
    ensure_csv_header none = [STANDARD_COLUMNS] ∧
    load_expenses (some []) = [] ∧
    ensure_csv_header (some []) = [STANDARD_COLUMNS] ∧
    load_expenses (some [STANDARD_COLUMNS]) = [] ∧
    ensure_csv_header (some [STANDARD_COLUMNS]) = [STANDARD_COLUMNS] ∧
    ∀ (r : List String) (rs : List (List String)),
      ensure_csv_header (some (r :: rs)) = r :: rs := by
  refine ⟨by decide, by decide, by decide, by decide, by decide, by decide,
    fun r rs => rfl⟩

/-! ## Claim C10: currency characters are deleted everywhere -/

/-- C10: the amount parser deletes every `'$'` and `','` anywhere in its
input (not just leading symbols or well-placed separators): parsing a
string gives the same result as parsing the string with all `'$'` and
`','` deleted, and in particular `"1,2$3"` parses to `123.00`. -/
theorem amount_cleanup_removes_everywhere :
    (∀ s : String, _parse_amount s = _parse_amount (stripCurrencyChars s)) ∧
    _parse_amount "1,2$3" = some (PyFloat.finite 123) := by
  constructor
  · intro s
    have h1 : _parse_amount s
        = amtCore (removeAll ',' (removeAll '$' (pystrip s.data))) := rfl
    have h2 : _parse_amount (stripCurrencyChars s)
        = amtCore (removeAll ','
            (removeAll '$' (pystrip (removeAll ',' (removeAll '$' s.data))))) := rfl
    have key := strip_removeAll_strip s.data
    rw [h1, h2, key]
    have hno : ∀ c ∈ pystrip (removeAll ',' (removeAll '$' (pystrip s.data))),
        c ≠ '$' ∧ c ≠ ',' := by
      intro c hc
      have hc1 := mem_pystrip hc
      have hc2 := mem_removeAll hc1
      have hc3 := mem_removeAll hc2.1
      exact ⟨hc3.2, hc2.2⟩
    rw [removeAll_eq_self (fun c hc => (hno c hc).1),
        removeAll_eq_self (fun c hc => (hno c hc).2),
        ← amtCore_pystrip]
  · decide

end FinanceTracker
